import Mathlib

/-!
# Verification of the ecolint core against its specification

This file gives a shallow embedding, in Lean 4, of the core of the `ecolint`
repository (a linter for `KEY=VALUE` environment files plus a project scanner
that infers environment-variable usage from source trees), and proves the
testable properties stated in the repository's specification.

Embedding conventions:
* Go strings are modelled as Lean `String` (a list of characters); the Go
  standard-library string operations used by the code (`strings.TrimSpace`,
  `strings.Contains`, `strings.SplitN`, `strings.HasPrefix`, `strings.ToUpper`,
  `strings.ToLower`, `strings.ReplaceAll`, `strings.TrimPrefix`) are given
  executable character-list models prefixed with `go`.  Case mapping is the
  ASCII mapping (the inputs of interest are ASCII).  `len` is modelled as the
  character count (identical to Go's byte count on ASCII data).
* Go `float64` confidence scores are modelled as exact rationals `ℚ`; the
  decimal literals of the source (`0.5`, `0.3`, `0.2`) become the exact
  rationals `1/2`, `3/10`, `1/5`.
* File I/O is abstracted: the parser and the file scanner take the list of
  physical lines of the file; the directory walk takes the list of callback
  events (`WalkEntry`) that `filepath.Walk` would deliver.
* Go maps are modelled as insertion-ordered association lists.  Go map
  iteration order is unspecified; all properties proved here are independent
  of that order.
* The fixed regular expressions of the source are modelled by equivalent
  executable character-class/affix checks, documented at each definition.
  The per-language scanner patterns (whose capture group extracts a candidate
  name from a line) are abstracted as a function `String → List String`.
-/

set_option maxRecDepth 10000

namespace Ecolint

/-! ## Character and string primitives (models of Go `strings` functions) -/

/-- Model of Go `unicode.IsSpace` restricted to the one-byte/latin-1 space
characters (`' '`, `\t`, `\n`, `\v`, `\f`, `\r`, NEL, NBSP); the inputs of
interest contain only ASCII whitespace. -/
def goIsSpace (c : Char) : Bool :=
  c == ' ' || c == '\t' || c == '\n' || c == '\x0b' || c == '\x0c' || c == '\r' ||
  c == '\x85' || c == '\xa0'

/-- Model of Go `strings.TrimSpace`: drop whitespace from both ends. -/
def goTrimSpace (s : String) : String :=
  String.mk (((s.toList.dropWhile goIsSpace).reverse.dropWhile goIsSpace).reverse)

/-- The check `listStartsWith l pat` is true when `pat` occurs at the head of `l`. -/
def listStartsWith : List Char → List Char → Bool
  | _, [] => true
  | [], _ :: _ => false
  | c :: cs, p :: ps => c == p && listStartsWith cs ps

/-- The check `listContainsSub l pat` is true when `pat` occurs contiguously in `l`
(model of Go `strings.Contains`). -/
def listContainsSub : List Char → List Char → Bool
  | [], pat => listStartsWith [] pat
  | c :: cs, pat => listStartsWith (c :: cs) pat || listContainsSub cs pat

/-- Model of Go `strings.Contains`. -/
def goContains (s sub : String) : Bool :=
  listContainsSub s.toList sub.toList

/-- Model of Go `strings.HasPrefix`. -/
def goStartsWith (s pre : String) : Bool :=
  listStartsWith s.toList pre.toList

/-- Model of Go `strings.HasSuffix`. -/
def goEndsWith (s suf : String) : Bool :=
  listStartsWith s.toList.reverse suf.toList.reverse

/-- Model of Go `strings.ToUpper` (ASCII mapping). -/
def goToUpper (s : String) : String :=
  String.mk (s.toList.map Char.toUpper)

/-- Model of Go `strings.ToLower` (ASCII mapping). -/
def goToLower (s : String) : String :=
  String.mk (s.toList.map Char.toLower)

/-- Character count of a string (equal to Go `len` on ASCII data). -/
def goLen (s : String) : Nat :=
  s.toList.length

/-- Split a character list at the first occurrence of `sep`; `none` when
`sep` does not occur. -/
def splitFirst : List Char → Char → Option (List Char × List Char)
  | [], _ => none
  | c :: cs, sep =>
    if c == sep then some ([], cs)
    else
      match splitFirst cs sep with
      | some (a, b) => some (c :: a, b)
      | none => none

/-- Model of Go `strings.SplitN(s, sep, 2)` for a one-character separator:
`[before, after]` split at the first occurrence, or `[s]` when the separator
does not occur. -/
def goSplitN2 (s : String) (sep : Char) : List String :=
  match splitFirst s.toList sep with
  | some (a, b) => [String.mk a, String.mk b]
  | none => [s]

/-! ## Data model: `env.Var` and `issues.Issue` (domain packages) -/

/-- Go `env.Var`: one parsed `KEY=VALUE` assignment with its 1-based source line. -/
structure Var where
  key : String
  value : String
  line : Nat
deriving DecidableEq

/-- Go `issues.Issue` (fields `Name`, `Key`, `File`, `FirstLine`, `Line`,
`Recommendations`); `Line` is the "last line" slot, `0` meaning unset. -/
structure Issue where
  name : String
  key : String
  file : String
  firstLine : Nat
  line : Nat
  recommendations : List String
deriving DecidableEq

/-- Go `issues.NewIssue(name, key, file, fl, ll, r)`. -/
def NewIssue (name key file : String) (fl ll : Nat) (r : List String) : Issue :=
  ⟨name, key, file, fl, ll, r⟩

/-! ## `parse.EnhancedParser.ParseWithIssues` -/

/-- Go `parse.EnhancedResult`. -/
structure EnhancedResult where
  issueList : List Issue
  vars : List Var
deriving DecidableEq

/-- One iteration of the `ParseWithIssues` line loop: the issues emitted for
the physical line `line` (1-based number `lineNum`) and the variable recorded
from it, if any. -/
def processLine (filename : String) (lineNum : Nat) (line : String) :
    List Issue × List Var :=
  let trimmedLine := goTrimSpace line
  if trimmedLine == "" || goStartsWith trimmedLine "#" then ([], [])
  else if !(goContains trimmedLine "=") then
    ([NewIssue "malformed line" trimmedLine filename lineNum lineNum
        ["Each line should be in KEY=VALUE format",
         "Use # for comments",
         "Check for missing equals sign"]], [])
  else
    match goSplitN2 trimmedLine '=' with
    | [p0, p1] =>
      let key := goTrimSpace p0
      let value := goTrimSpace p1
      if key == "" then
        ([NewIssue "empty key" line filename lineNum lineNum
            ["Variable names cannot be empty",
             "Use descriptive variable names"]], [])
      else
        let keyIssues :=
          if goContains key " " || goContains key "\t" then
            [NewIssue "invalid key format" key filename lineNum lineNum
               ["Variable names should not contain spaces or tabs",
                "Use underscores instead of spaces",
                "Follow UPPER_SNAKE_CASE convention"]]
          else []
        let valueIssues :=
          if value == "" then
            [NewIssue "empty value" key filename lineNum lineNum
               ["Consider if this variable should have a default value",
                "Use quotes for intentionally empty strings: KEY=\"\"",
                "Document why this value is empty"]]
          else []
        (keyIssues ++ valueIssues, [⟨key, value, lineNum⟩])
    | _ =>
      ([NewIssue "malformed line" trimmedLine filename lineNum lineNum
          ["Each line should be in KEY=VALUE format",
           "Check for multiple equals signs without proper quoting"]], [])

/-- The `ParseWithIssues` loop over the remaining lines, `n` lines already
consumed. -/
def parseLinesFrom (filename : String) : Nat → List String → EnhancedResult
  | _, [] => ⟨[], []⟩
  | n, line :: rest =>
    let this := processLine filename (n + 1) line
    let r := parseLinesFrom filename (n + 1) rest
    ⟨this.1 ++ r.issueList, this.2 ++ r.vars⟩

/-- Go `parse.EnhancedParser.ParseWithIssues`, on the list of physical lines of
the file (I/O abstracted away; a read error would abort the whole call and
produce no result, so the result value is only defined for successful reads). -/
def ParseWithIssues (filename : String) (lines : List String) : EnhancedResult :=
  parseLinesFrom filename 0 lines

/-! ## The `Duplicate` rule -/

/-- Lookup in the insertion-ordered association list modelling the Go map
`seen`. -/
def lookupIssue : List (String × Issue) → String → Option Issue
  | [], _ => none
  | (k, i) :: rest, key => if k == key then some i else lookupIssue rest key

/-- Map write `seen[key] = i`: update in place, or append a new binding. -/
def setIssue : List (String × Issue) → String → Issue → List (String × Issue)
  | [], key, i => [(key, i)]
  | (k, j) :: rest, key, i =>
    if k == key then (k, i) :: rest else (k, j) :: setIssue rest key i

/-- One iteration of the `Duplicate` loop body. -/
def dupStep (file : String) (seen : List (String × Issue)) (v : Var) :
    List (String × Issue) :=
  match lookupIssue seen v.key with
  | some currentIssue =>
    setIssue seen v.key
      (NewIssue "duplicate variable" v.key file currentIssue.firstLine v.line [])
  | none =>
    setIssue seen v.key (NewIssue "duplicate variable" v.key file v.line 0 [])

/-- Go `rules.Duplicate`: group by key, then keep the accumulated entries whose
`Line` field was set (key seen at least twice).  The Go map iteration order is
unspecified; the model iterates in key-insertion order. -/
def Duplicate (vars : List Var) (file : String) : List Issue :=
  (((vars.foldl (dupStep file) []).map Prod.snd).filter (fun i => i.line != 0))

/-! ## The `Security` rule

The ten `secretKeyPatterns` regexes all have the shape `(?i)(alt|…)$` built
from literal alternatives, so `MatchString` holds exactly when the lowercased
key ends with one of the alternatives; each disjunct below models one regex. -/

/-- The disjunction of the ten `secretKeyPatterns` checks of `rules.Security`. -/
def isSecretKeyName (key : String) : Bool :=
  let k := goToLower key
  -- `(?i)(password|pwd|pass)$`
  (goEndsWith k "password" || goEndsWith k "pwd" || goEndsWith k "pass") ||
  -- `(?i)(secret|key|token)$`
  (goEndsWith k "secret" || goEndsWith k "key" || goEndsWith k "token") ||
  -- `(?i)(private|priv)_key$`
  (goEndsWith k "private_key" || goEndsWith k "priv_key") ||
  -- `(?i)api_(key|secret|token)$`
  (goEndsWith k "api_key" || goEndsWith k "api_secret" || goEndsWith k "api_token") ||
  -- `(?i)(auth|oauth)_(key|secret|token)$`
  (goEndsWith k "auth_key" || goEndsWith k "auth_secret" || goEndsWith k "auth_token" ||
   goEndsWith k "oauth_key" || goEndsWith k "oauth_secret" || goEndsWith k "oauth_token") ||
  -- `(?i)(access|refresh)_token$`
  (goEndsWith k "access_token" || goEndsWith k "refresh_token") ||
  -- `(?i)jwt_(secret|key)$`
  (goEndsWith k "jwt_secret" || goEndsWith k "jwt_key") ||
  -- `(?i)(db|database)_(password|pass|pwd)$`
  (goEndsWith k "db_password" || goEndsWith k "db_pass" || goEndsWith k "db_pwd" ||
   goEndsWith k "database_password" || goEndsWith k "database_pass" || goEndsWith k "database_pwd") ||
  -- `(?i)(smtp|email)_(password|pass|pwd)$`
  (goEndsWith k "smtp_password" || goEndsWith k "smtp_pass" || goEndsWith k "smtp_pwd" ||
   goEndsWith k "email_password" || goEndsWith k "email_pass" || goEndsWith k "email_pwd") ||
  -- `(?i)(aws|gcp|azure)_(secret|key)$`
  (goEndsWith k "aws_secret" || goEndsWith k "aws_key" ||
   goEndsWith k "gcp_secret" || goEndsWith k "gcp_key" ||
   goEndsWith k "azure_secret" || goEndsWith k "azure_key")

/-- ASCII alphanumeric (`[A-Za-z0-9]`). -/
def isAlnumChar (c : Char) : Bool := c.isUpper || c.isLower || c.isDigit

/-- The character class `[A-Za-z0-9_-]` of the JWT / Google-key regexes. -/
def isJwtChar (c : Char) : Bool := isAlnumChar c || c == '_' || c == '-'

/-- The character class `[A-Za-z0-9+/]` of the base64 regex. -/
def isBase64Char (c : Char) : Bool := isAlnumChar c || c == '+' || c == '/'

/-- The character class `[a-fA-F0-9]` of the hex regex. -/
def isHexChar (c : Char) : Bool :=
  c.isDigit || ('a' ≤ c && c ≤ 'f') || ('A' ≤ c && c ≤ 'F')

/-- Split a character list on every occurrence of `sep`. -/
def splitOnChar (sep : Char) : List Char → List (List Char)
  | [] => [[]]
  | c :: cs =>
    if c == sep then [] :: splitOnChar sep cs
    else
      match splitOnChar sep cs with
      | [] => [[c]]
      | seg :: rest => (c :: seg) :: rest

/-- The regex `^[A-Za-z0-9_-]+\.[A-Za-z0-9_-]+\.[A-Za-z0-9_-]+$` (JWT shape): since `.`
is outside the segment class, a match is exactly three nonempty dot-free
segments over the class, separated by two literal dots. -/
def jwtShape (value : String) : Bool :=
  match splitOnChar '.' value.toList with
  | [a, b, c] =>
    !a.isEmpty && !b.isEmpty && !c.isEmpty &&
    a.all isJwtChar && b.all isJwtChar && c.all isJwtChar
  | _ => false

/-- The regex `^[A-Za-z0-9]{32,}$` (long API-key shape). -/
def longAlnumShape (value : String) : Bool :=
  decide (32 ≤ value.toList.length) && value.toList.all isAlnumChar

/-- The regex `^[A-Za-z0-9+/]{20,}={0,2}$` (base64 shape): since `=` is outside the
class, a match is at most two trailing `=` after at least 20 class characters. -/
def base64Shape (value : String) : Bool :=
  let rev := value.toList.reverse
  let pad := rev.takeWhile (fun c => c == '=')
  let core := rev.dropWhile (fun c => c == '=')
  decide (pad.length ≤ 2) && decide (20 ≤ core.length) && core.all isBase64Char

/-- The regex `^[a-fA-F0-9]{16,}$` (hex shape). -/
def hexShape (value : String) : Bool :=
  decide (16 ≤ value.toList.length) && value.toList.all isHexChar

/-- The regex `^AKIA[0-9A-Z]{16}$` (AWS key shape). -/
def akiaShape (value : String) : Bool :=
  goStartsWith value "AKIA" && decide (value.toList.length = 20) &&
  (value.toList.drop 4).all (fun c => c.isDigit || c.isUpper)

/-- The regex `^AIza[0-9A-Za-z_-]{35}$` (Google API key shape). -/
def aizaShape (value : String) : Bool :=
  goStartsWith value "AIza" && decide (value.toList.length = 39) &&
  (value.toList.drop 4).all isJwtChar

/-- The disjunction of the six `secretValuePatterns` checks of `rules.Security`. -/
def looksLikeSecretValue (value : String) : Bool :=
  jwtShape value || longAlnumShape value || base64Shape value ||
  hexShape value || akiaShape value || aizaShape value

/-- The `safePlaceholders` vocabulary of `rules.Security`. -/
def safePlaceholders : List String :=
  ["changeme", "placeholder", "your_key_here", "your_secret_here",
   "example", "sample", "dummy", "test", "localhost", "127.0.0.1",
   "true", "false", "development", "production", "staging"]

/-- The placeholder exemption: the lowercased value equals or contains one of
the safe placeholder words (the Go loop with `break` is an existence check). -/
def isSafePlaceholderValue (value : String) : Bool :=
  let lowerValue := goToLower value
  safePlaceholders.any (fun placeholder =>
    lowerValue == placeholder || goContains lowerValue placeholder)

/-- The issues the `rules.Security` loop body emits for one variable. -/
def securityCheckVar (file : String) (v : Var) : List Issue :=
  if v.value == "" then []
  else
    let isSecretKey := isSecretKeyName v.key
    let looksLikeSecret := looksLikeSecretValue v.value
    if isSafePlaceholderValue v.value then []
    else if isSecretKey || looksLikeSecret then
      let recommendations :=
        ["Consider using a secret management system (e.g., HashiCorp Vault, AWS Secrets Manager)",
         "Use placeholder values in committed files (e.g., 'your_api_key_here')",
         "Add this file to .gitignore if it contains real secrets",
         "Use environment-specific files (.env.local) for sensitive data"]
      let recommendations :=
        if isSecretKey && !looksLikeSecret then
          "Variable name suggests it may contain sensitive data" :: recommendations
        else recommendations
      let recommendations :=
        if looksLikeSecret then
          "Value appears to be a secret or API key" :: recommendations
        else recommendations
      [NewIssue "potential secret in plaintext" v.key file v.line 0 recommendations]
    else []

/-- Go `rules.Security`: the loop appends the per-variable issues in order. -/
def Security (vars : List Var) (file : String) : List Issue :=
  vars.foldr (fun v acc => securityCheckVar file v ++ acc) []

/-! ## The `Convention` rule -/

/-- Go regexp word character (`\w` = `[0-9A-Za-z_]`). -/
def isWordChar (c : Char) : Bool := isAlnumChar c || c == '_'

/-- The regex `^[A-Z][A-Z0-9_]*$`: the `validPattern` of `rules.Convention`. -/
def validPatternMatch (key : String) : Bool :=
  match key.toList with
  | [] => false
  | c :: cs => c.isUpper && cs.all (fun d => d.isUpper || d.isDigit || d == '_')

/-- Unanchored `[a-z][A-Z]` (camelCase boundary somewhere in the string). -/
def hasCamelPair : List Char → Bool
  | a :: b :: rest => (a.isLower && b.isUpper) || hasCamelPair (b :: rest)
  | _ => false

/-- Unanchored `^[0-9]` (leading digit). -/
def startsWithDigit (key : String) : Bool :=
  match key.toList with
  | [] => false
  | c :: _ => c.isDigit

/-- Unanchored `[^A-Za-z0-9_]` (some character outside the word class). -/
def hasSpecialChar (key : String) : Bool :=
  key.toList.any (fun c => !(isWordChar c))

/-- Model of Go `strings.ReplaceAll` (all non-overlapping occurrences, left to
right; the empty-pattern case, unused by the source, leaves the string
unchanged to keep the recursion well founded). -/
def listReplaceAll (pat rep : List Char) : List Char → List Char
  | [] => []
  | c :: cs =>
    if h : pat ≠ [] ∧ listStartsWith (c :: cs) pat then
      rep ++ listReplaceAll pat rep ((c :: cs).drop pat.length)
    else
      c :: listReplaceAll pat rep cs
termination_by l => l.length
decreasing_by
  · simp only [List.length_drop, List.length_cons]
    have : 1 ≤ pat.length := List.length_pos.mpr h.1
    omega
  · simp

/-- Model of Go `strings.ReplaceAll` on strings. -/
def goReplaceAll (s pat rep : String) : String :=
  String.mk (listReplaceAll pat.toList rep.toList s.toList)

/-- Model of Go `strings.TrimPrefix`. -/
def goTrimLeading (s pre : String) : String :=
  if goStartsWith s pre then String.mk (s.toList.drop pre.toList.length) else s

/-- First pass of `convertCamelToSnake`: `([a-z0-9])([A-Z])` → `${1}_${2}`
(non-overlapping, left to right; a replaced pair is consumed). -/
def camelPass1 : List Char → List Char
  | a :: b :: rest =>
    if (a.isLower || a.isDigit) && b.isUpper then a :: '_' :: b :: camelPass1 rest
    else a :: camelPass1 (b :: rest)
  | l => l

/-- Second pass of `convertCamelToSnake`: `([A-Z])([A-Z][a-z])` → `${1}_${2}`
(non-overlapping, left to right; a replaced triple is consumed). -/
def camelPass2 : List Char → List Char
  | a :: b :: c :: rest =>
    if a.isUpper && b.isUpper && c.isLower then a :: '_' :: b :: c :: camelPass2 rest
    else a :: camelPass2 (b :: c :: rest)
  | l => l

/-- Go `rules.convertCamelToSnake`: the two regex replacement passes, then
lowercase the whole result. -/
def convertCamelToSnake (s : String) : String :=
  String.mk ((camelPass2 (camelPass1 s.toList)).map Char.toLower)

/-- Does `pat` occur in `l` starting here, with Go regexp word boundaries
(`\b`) on both sides?  `prev` is the character immediately before `l`. -/
def wordBoundedHere (prev : Option Char) (l pat : List Char) : Bool :=
  listStartsWith l pat &&
  (match prev with | none => true | some p => !(isWordChar p)) &&
  (match l.drop pat.length with | [] => true | c :: _ => !(isWordChar c))

/-- Does `pat` occur somewhere in `l` with word boundaries on both sides
(model of `regexp.MatchString` for `\bPAT\b` with `PAT` a word-character
literal)? -/
def hasWordBoundedMatch : (prev : Option Char) → (l : List Char) → (pat : List Char) → Bool
  | prev, l, pat =>
    wordBoundedHere prev l pat ||
    match l with
    | [] => false
    | c :: cs => hasWordBoundedMatch (some c) cs pat

/-- The regex `\bABBREV\b` matching on a key. -/
def wordBoundedIn (key abbr : String) : Bool :=
  hasWordBoundedMatch none key.toList abbr.toList

/-- The `systemVars` list of `rules.Convention`. -/
def systemVars : List String :=
  ["PATH", "HOME", "USER", "SHELL", "PWD", "TERM", "LANG", "LC_ALL",
   "TMPDIR", "TMP", "TEMP", "HOSTNAME", "HOSTTYPE", "MACHTYPE"]

/-- The `antiPatterns` map of `rules.Convention` (exact-key lookup; iteration
order is irrelevant because at most one key matches). -/
def antiPatterns : List (String × String) :=
  [("CONFIG", "Be more specific (e.g., DATABASE_CONFIG, APP_CONFIG)"),
   ("SETTINGS", "Be more specific (e.g., USER_SETTINGS, APP_SETTINGS)"),
   ("DATA", "Be more specific (e.g., USER_DATA, CACHE_DATA)"),
   ("INFO", "Be more specific (e.g., USER_INFO, DEBUG_INFO)"),
   ("TEMP", "Use TMPDIR or TMP_PATH instead"),
   ("TEST", "Be more specific (e.g., TEST_DATABASE_URL)")]

/-- The `redundantPrefixes` list of `rules.Convention` (the loop breaks at the
first match). -/
def redundantStarts : List String :=
  ["ENV_", "ENVIRONMENT_", "VAR_", "VARIABLE_"]

/-- The `abbreviationSuggestions` map of `rules.Convention`, in source-literal
order.  Go map iteration order is unspecified; when several abbreviations
match, the model fixes this order for the accumulated recommendations (the
properties proved here involve at most one matching abbreviation). -/
def abbreviationSuggestions : List (String × String) :=
  [("DB", "DATABASE"), ("PWD", "PASSWORD"), ("USR", "USER"), ("SVR", "SERVER"),
   ("CFG", "CONFIG"), ("STG", "STAGING"), ("PRD", "PRODUCTION"), ("DEV", "DEVELOPMENT")]

/-- The issues the `rules.Convention` loop body emits for one variable: all
applicable findings accumulate into one recommendation list. -/
def conventionCheckVar (file : String) (v : Var) : List Issue :=
  let start : List String × Bool := ([], false)
  let acc :=
    if !(validPatternMatch v.key) then
      let recs : List String := []
      let recs :=
        if goContains v.key " " || goContains v.key "\t" then
          recs ++ ["Remove spaces and tabs from variable names",
                   "Use underscores (_) to separate words"]
        else recs
      let recs :=
        if goToLower v.key == v.key then
          recs ++ ["Use UPPERCASE for environment variables", "Try: " ++ goToUpper v.key]
        else recs
      let recs :=
        if v.key != goToUpper v.key && v.key != goToLower v.key then
          recs ++ ["Use consistent UPPER_SNAKE_CASE", "Try: " ++ goToUpper v.key]
        else recs
      let recs :=
        if goContains v.key "-" then
          recs ++ ["Use underscores (_) instead of hyphens (-)",
                   "Try: " ++ goReplaceAll (goToUpper v.key) "-" "_"]
        else recs
      let recs :=
        if hasCamelPair v.key.toList then
          recs ++ ["Convert camelCase to UPPER_SNAKE_CASE",
                   "Try: " ++ goToUpper (convertCamelToSnake v.key)]
        else recs
      let recs :=
        if startsWithDigit v.key then
          recs ++ ["Variable names cannot start with numbers",
                   "Prefix with a descriptive word (e.g., ITEM_" ++ v.key ++ ")"]
        else recs
      let recs :=
        if hasSpecialChar v.key then
          recs ++ ["Only use letters, numbers, and underscores",
                   "Remove or replace special characters"]
        else recs
      let recs :=
        if recs.isEmpty then
          ["Use UPPER_SNAKE_CASE convention (e.g., DATABASE_URL)",
           "Start with a letter, use only letters, numbers, and underscores"]
        else recs
      (recs, true)
    else start
  let acc :=
    if goLen v.key == 1 then
      (acc.1 ++ ["Avoid single-letter variable names",
                 "Use descriptive names (e.g., PORT instead of P)"], true)
    else acc
  let acc :=
    if decide (50 < goLen v.key) then
      (acc.1 ++ ["Consider shorter, more concise variable names",
                 "Break down complex names into logical parts"], true)
    else acc
  let acc :=
    if systemVars.contains v.key then
      (acc.1 ++ ["Avoid overriding system environment variables",
                 "Consider prefixing with your app name (e.g., MYAPP_" ++ v.key ++ ")",
                 "This could cause unexpected behavior in scripts and tools"], true)
    else acc
  let acc :=
    match antiPatterns.lookup v.key with
    | some suggestion => (acc.1 ++ ["Variable name is too generic", suggestion], true)
    | none => acc
  let acc :=
    match redundantStarts.find? (fun p => goStartsWith v.key p) with
    | some p =>
      let recs := acc.1 ++ ["Remove redundant prefix '" ++ p ++ "'"]
      let suggestions := goTrimLeading v.key p
      let recs := if suggestions != "" then recs ++ ["Try: " ++ suggestions] else recs
      (recs, true)
    | none => acc
  let acc :=
    abbreviationSuggestions.foldl
      (fun (acc : List String × Bool) ab =>
        if goContains v.key ab.1 && !(goContains v.key ab.2) && wordBoundedIn v.key ab.1 then
          (acc.1 ++ ["Consider using full words instead of abbreviations",
                     "Try: " ++ goReplaceAll v.key ab.1 ab.2 ++ " (instead of " ++ ab.1 ++ ")"],
           true)
        else acc)
      acc
  if acc.2 then
    [NewIssue "naming convention violation" v.key file v.line v.line acc.1]
  else []

/-- Go `rules.Convention`: the loop appends the per-variable issues in order. -/
def Convention (vars : List Var) (file : String) : List Issue :=
  vars.foldr (fun v acc => conventionCheckVar file v ++ acc) []

/-! ## The project scanner (`internal/scan`) -/

/-- Go `scan.VariablePattern`.  The compiled regular expression is abstracted by
`matcher`, which returns, for one source line, the first capture group of
every non-overlapping match (`FindAllStringSubmatch(line, -1)` followed by the
`match[1]` projection; submatch rows with no capture are skipped by the source
and are simply absent here). -/
structure VariablePattern where
  name : String
  matcher : String → List String
  description : String
  language : String

/-- Go `scan.UsageResult` (`confidence` is the `float64` score, modelled in ℚ). -/
structure UsageResult where
  varName : String
  file : String
  line : Nat
  context : String
  pattern : String
  confidence : ℚ
deriving DecidableEq

/-- Go `scan.ScanResult`: `Variables` is a Go map modelled as an
insertion-ordered association list; `Errors` are error message strings. -/
structure ScanResult where
  Variables : List (String × List UsageResult)
  Files : List String
  Errors : List String
deriving DecidableEq

/-- Go `scan.ProjectScanner`. -/
structure ProjectScanner where
  patterns : List VariablePattern
  excludePaths : List String
  includeExts : List String

/-- The `commonEnvVars` vocabulary of `calculateConfidence`. -/
def commonEnvVars : List String :=
  ["PORT", "HOST", "DATABASE_URL", "API_KEY", "SECRET_KEY",
   "NODE_ENV", "ENVIRONMENT", "DEBUG", "LOG_LEVEL", "TIMEOUT"]

/-- Go `scan.ProjectScanner.calculateConfidence`: base `0.5`, the four name
adjustments and the context adjustment, then the `> 1.0` cap and `< 0.0`
floor.  The `pattern` argument is unused, as in the source. -/
def calculateConfidence (varName line : String) (pattern : VariablePattern) : ℚ :=
  let confidence : ℚ := 1/2
  let confidence :=
    if goToUpper varName == varName && decide (1 < goLen varName) then confidence + 3/10
    else confidence
  let confidence :=
    if goContains varName "_" then confidence + 1/5 else confidence
  let confidence :=
    if decide (goLen varName ≤ 2) then confidence - 3/10 else confidence
  let confidence :=
    if commonEnvVars.any (fun common => goContains (goToUpper varName) common) then
      confidence + 1/5
    else confidence
  let lowerLine := goToLower line
  let confidence :=
    if goContains lowerLine "process.env" || goContains lowerLine "os.getenv" ||
       goContains lowerLine "os.environ" || goContains lowerLine "$env:" ||
       goContains lowerLine "$\x7b" then
      confidence + 1/5
    else confidence
  let confidence := if 1 < confidence then 1 else confidence
  let confidence := if confidence < 0 then 0 else confidence
  confidence

/-- Map write `m[k] = append(m[k], us...)` on the association-list model of a
Go map: extend the existing bucket in place, or append a new binding. -/
def appendUsages : List (String × List UsageResult) → String → List UsageResult →
    List (String × List UsageResult)
  | [], k, us => [(k, us)]
  | (k', vs) :: rest, k, us =>
    if k' == k then (k', vs ++ us) :: rest else (k', vs) :: appendUsages rest k us

/-- The per-line body of `scanFile`: apply every pattern to the line and
append one `UsageResult` per match. -/
def scanLine (ps : ProjectScanner) (filePath : String) (lineNum : Nat) (line : String)
    (acc : List (String × List UsageResult)) : List (String × List UsageResult) :=
  ps.patterns.foldl
    (fun acc pattern =>
      (pattern.matcher line).foldl
        (fun acc varName =>
          appendUsages acc varName
            [{ varName := varName
               file := filePath
               line := lineNum
               context := goTrimSpace line
               pattern := pattern.name
               confidence := calculateConfidence varName line pattern }])
        acc)
    acc

/-- The `scanFile` line loop, `n` lines already consumed. -/
def scanLinesFrom (ps : ProjectScanner) (filePath : String) :
    Nat → List String → List (String × List UsageResult) → List (String × List UsageResult)
  | _, [], acc => acc
  | n, line :: rest, acc =>
    scanLinesFrom ps filePath (n + 1) rest (scanLine ps filePath (n + 1) line acc)

/-- Go `scan.ProjectScanner.scanFile` on an already-opened file, given its
physical lines and the read error reported by `bufio.Scanner.Err()` after the
loop, if any (a mid-stream read failure still returns the usages accumulated
so far, with the error recorded in the per-file result's `Errors`). -/
def scanFile (ps : ProjectScanner) (filePath : String) (lines : List String)
    (readErr : Option String) : ScanResult :=
  { Variables := scanLinesFrom ps filePath 0 lines []
    Files := [filePath]
    Errors := match readErr with | some e => [e] | none => [] }

/-- Model of Go `filepath.Base` for slash-separated paths without trailing
slashes (the forms the walk produces). -/
def goBase (path : String) : String :=
  String.mk ((path.toList.reverse.takeWhile (fun c => !(c == '/'))).reverse)

/-- Model of Go `filepath.Ext`: the suffix starting at the final dot of the
final path element, or `""` when that element has no dot. -/
def goExt (path : String) : String :=
  let revElem := path.toList.reverse.takeWhile (fun c => !(c == '/'))
  if revElem.contains '.' then
    String.mk (((revElem.takeWhile (fun c => !(c == '.'))) ++ ['.']).reverse)
  else ""

/-- Go `scan.ProjectScanner.shouldScanFile`: exact basename match or extension
match against the include list. -/
def shouldScanFile (ps : ProjectScanner) (path : String) : Bool :=
  ps.includeExts.any (fun inc => goBase path == inc || goExt path == inc)

/-- Outcome of opening and reading one file during the walk. -/
inductive FileContent where
  /-- `os.Open` failed with this error message. -/
  | openError (msg : String)
  /-- The file was opened; these physical lines were read, and `Err()`
  reported this error afterwards, if any. -/
  | ok (lines : List String) (readErr : Option String)

/-- One invocation of the `filepath.Walk` callback, abstracting the
filesystem: a path-access error, a directory, or a regular file with its
content.  Directory pruning (`SkipDir` for excluded paths) only shapes which
entries the walk delivers and never touches the accumulated result, so the
`dir` case carries no content. -/
inductive WalkEntry where
  | accessError (path msg : String)
  | dir (path : String)
  | file (path : String) (content : FileContent)

/-- The `ScanProject` walk-callback body, acting on the accumulated result.
Note that for a successfully opened file only `fileResult.Variables` is
merged: the per-file `Errors` (a mid-read failure) are dropped, exactly as in
the source. -/
def scanStep (ps : ProjectScanner) (acc : ScanResult) : WalkEntry → ScanResult
  | .accessError path msg =>
    { acc with Errors := acc.Errors ++ ["error accessing " ++ path ++ ": " ++ msg] }
  | .dir _ => acc
  | .file path content =>
    if !(shouldScanFile ps path) then acc
    else
      match content with
      | .openError msg =>
        { acc with Errors := acc.Errors ++ ["error scanning " ++ path ++ ": " ++ msg] }
      | .ok lines readErr =>
        let fileResult := scanFile ps path lines readErr
        { acc with
          Files := acc.Files ++ [path]
          Variables := fileResult.Variables.foldl
            (fun m kv => appendUsages m kv.1 kv.2) acc.Variables }

/-- Go `scan.ProjectScanner.ScanProject` over the walk's callback events.  Every
branch of the callback returns `nil` (or `SkipDir`, handled by the walk), so
the walk never aborts and the accumulated result is always returned. -/
def ScanProject (ps : ProjectScanner) (entries : List WalkEntry) : ScanResult :=
  entries.foldl (scanStep ps) ⟨[], [], []⟩

/-- One iteration of the `GetRequiredVariables` loop: skip buckets with fewer
than `minUsages` usages, average the confidences, keep names reaching
`minConfidence`. -/
def grvStep (minConfidence : ℚ) (minUsages : Int) (required : List String)
    (kv : String × List UsageResult) : List String :=
  if (kv.2.length : Int) < minUsages then required
  else
    let totalConfidence := kv.2.foldl (fun t u => t + u.confidence) 0
    let avgConfidence := totalConfidence / (kv.2.length : ℚ)
    if minConfidence ≤ avgConfidence then required ++ [kv.1] else required

/-- Go `scan.ScanResult.GetRequiredVariables`: keep the names of buckets with at
least `minUsages` usages whose average confidence reaches `minConfidence`. -/
def GetRequiredVariables (sr : ScanResult) (minConfidence : ℚ) (minUsages : Int) :
    List String :=
  sr.Variables.foldl (grvStep minConfidence minUsages) []

/-! ## Basic lemmas about the string primitives -/

theorem listContainsSub_nil_pat (l : List Char) : listContainsSub l [] = true := by
  cases l <;> simp [listContainsSub, listStartsWith]

theorem splitFirst_of_contains (l : List Char) (sep : Char)
    (h : listContainsSub l [sep] = true) :
    ∃ a b, splitFirst l sep = some (a, b) := by
  induction l with
  | nil => simp [listContainsSub, listStartsWith] at h
  | cons c cs ih =>
    by_cases hc : c == sep
    · exact ⟨[], cs, by simp [splitFirst, hc]⟩
    · have h' : listContainsSub cs [sep] = true := by
        simp only [listContainsSub, listStartsWith, Bool.or_eq_true, Bool.and_eq_true] at h
        rcases h with ⟨h1, _⟩ | h2
        · exact absurd h1 (by simpa using hc)
        · exact h2
      obtain ⟨a, b, hab⟩ := ih h'
      exact ⟨c :: a, b, by simp [splitFirst, hc, hab]⟩

theorem goSplitN2_of_goContains (s : String) (h : goContains s "=" = true) :
    ∃ a b, goSplitN2 s '=' = [a, b] := by
  have h' : listContainsSub s.toList ['='] = true := h
  obtain ⟨a, b, hab⟩ := splitFirst_of_contains s.toList '=' h'
  refine ⟨String.mk a, String.mk b, ?_⟩
  simp only [goSplitN2]
  rw [hab]

/-! ## Claim 10: the second malformed-line branch of `ParseWithIssues` -/

/-- The recommendation list of the reachable (no-equals-sign) malformed-line
branch. -/
def malformedRecs : List String :=
  ["Each line should be in KEY=VALUE format",
   "Use # for comments",
   "Check for missing equals sign"]

theorem processLine_malformed (filename : String) (lineNum : Nat) (line : String)
    (i : Issue) (hi : i ∈ (processLine filename lineNum line).1)
    (hname : i.name = "malformed line") :
    i.recommendations = malformedRecs := by
  simp only [processLine] at hi
  split_ifs at hi with h1 h2
  · simp at hi
  · simp only [List.mem_singleton] at hi
    subst hi
    rfl
  · have hcont : goContains (goTrimSpace line) "=" = true := by
      simpa using h2
    obtain ⟨a, b, hab⟩ := goSplitN2_of_goContains _ hcont
    rw [hab] at hi
    simp only at hi
    split_ifs at hi with h3 h4 h5 <;>
      simp only [List.mem_append, List.mem_singleton, List.mem_nil_iff, or_false,
        false_or] at hi <;>
      first
        | (subst hi; simp [NewIssue] at hname)
        | (rcases hi with hi | hi <;> first
            | (subst hi; simp [NewIssue] at hname)
            | simp at hi)

theorem parseLinesFrom_malformed (filename : String) (lines : List String) (n : Nat)
    (i : Issue) (hi : i ∈ (parseLinesFrom filename n lines).issueList)
    (hname : i.name = "malformed line") :
    i.recommendations = malformedRecs := by
  induction lines generalizing n with
  | nil => simp [parseLinesFrom] at hi
  | cons line rest ih =>
    simp only [parseLinesFrom, List.mem_append] at hi
    rcases hi with hi | hi
    · exact processLine_malformed filename (n + 1) line i hi hname
    · exact ih (n + 1) hi

/-- C10: in `ParseWithIssues`, for every line whose trimmed form contains an
`=` character, `strings.SplitN(·, "=", 2)` yields exactly two parts, so the
second malformed-line branch (the one recommending a check for multiple equals
signs without proper quoting) is unreachable: every `malformed line` issue the
parser emits carries the recommendations of the no-equals-sign check. -/
theorem malformed_second_branch_unreachable :
    (∀ s : String, goContains s "=" = true → (goSplitN2 s '=').length = 2) ∧
    (∀ (filename : String) (lines : List String) (i : Issue),
      i ∈ (ParseWithIssues filename lines).issueList →
      i.name = "malformed line" →
      i.recommendations = malformedRecs) := by
  constructor
  · intro s h
    obtain ⟨a, b, hab⟩ := goSplitN2_of_goContains s h
    rw [hab]
    rfl
  · intro filename lines i hi hname
    exact parseLinesFrom_malformed filename lines 0 i hi hname

/-- Witness for C10 at concrete inputs: `"A=B"` splits into two parts, and the
malformed-line issue produced for the line `"NOEQUALS"` carries the
no-equals-sign recommendations. -/
theorem malformed_second_branch_unreachable_witness :
    (goSplitN2 "A=B" '=').length = 2 ∧
    ((ParseWithIssues "f" ["NOEQUALS"]).issueList.headD
        (NewIssue "" "" "" 0 0 [])).recommendations = malformedRecs :=
  ⟨malformed_second_branch_unreachable.1 "A=B" (by decide),
   malformed_second_branch_unreachable.2 "f" ["NOEQUALS"]
     ((ParseWithIssues "f" ["NOEQUALS"]).issueList.headD (NewIssue "" "" "" 0 0 []))
     (by decide) (by decide)⟩

/-! ## Claim 1: end-to-end parse + Duplicate scenario -/

/-- C1: parsing the five physical lines `PORT=8080`, blank, `PORT=3000`,
`MALFORMED LINE WITHOUT EQUALS`, `EMPTY_VAR=` with the issue-reporting parser
yields exactly one malformed-line issue at line 4, one empty-value issue for
`EMPTY_VAR` at line 5, and the three variable records `PORT=8080`@1,
`PORT=3000`@3, `EMPTY_VAR=`@5; applying the `Duplicate` rule to those records
yields exactly one duplicate issue for `PORT` with `FirstLine = 1` and
`Line = 3`. -/
theorem parse_duplicate_end_to_end :
    ParseWithIssues "test.env"
        ["PORT=8080", "", "PORT=3000", "MALFORMED LINE WITHOUT EQUALS", "EMPTY_VAR="] =
      ⟨[NewIssue "malformed line" "MALFORMED LINE WITHOUT EQUALS" "test.env" 4 4
          ["Each line should be in KEY=VALUE format",
           "Use # for comments",
           "Check for missing equals sign"],
        NewIssue "empty value" "EMPTY_VAR" "test.env" 5 5
          ["Consider if this variable should have a default value",
           "Use quotes for intentionally empty strings: KEY=\"\"",
           "Document why this value is empty"]],
       [⟨"PORT", "8080", 1⟩, ⟨"PORT", "3000", 3⟩, ⟨"EMPTY_VAR", "", 5⟩]⟩ ∧
    Duplicate (ParseWithIssues "test.env"
        ["PORT=8080", "", "PORT=3000", "MALFORMED LINE WITHOUT EQUALS", "EMPTY_VAR="]).vars
        "test.env" =
      [NewIssue "duplicate variable" "PORT" "test.env" 1 3 []] := by
  decide

/-! ## Claim 4: the `Convention` rule on `databaseUrl` and `DATABASE_URL` -/

/-- C4: for the single-variable input with key `databaseUrl` the `Convention`
rule produces exactly one issue, whose recommendation list contains a
case-conversion suggestion containing the substring `DATABASE_URL`; for the
key `DATABASE_URL` the rule produces no issue at all. -/
theorem convention_databaseUrl (file value : String) (line : Nat) :
    ((Convention [⟨"databaseUrl", value, line⟩] file).length = 1 ∧
      ∃ i ∈ Convention [⟨"databaseUrl", value, line⟩] file,
        ∃ r ∈ i.recommendations, goContains r "DATABASE_URL" = true) ∧
    Convention [⟨"DATABASE_URL", value, line⟩] file = [] := by
  have h : Convention [⟨"databaseUrl", value, line⟩] file =
      [NewIssue "naming convention violation" "databaseUrl" file line line
        ["Use consistent UPPER_SNAKE_CASE", "Try: DATABASEURL",
         "Convert camelCase to UPPER_SNAKE_CASE", "Try: DATABASE_URL"]] := rfl
  refine ⟨⟨by rw [h]; rfl, ?_⟩, rfl⟩
  refine ⟨_, by rw [h]; exact List.mem_singleton.mpr rfl, "Try: DATABASE_URL", ?_, by decide⟩
  simp [NewIssue]

/-! ## Claim 3: the `Security` rule

The claim as stated fails on the code: the loop skips every variable with an
empty value *before* the placeholder exemption and the signal checks, so a
non-exempted variable whose key-name signal fires but whose value is empty
produces no issue. -/

/-- Counterexample to C3 as stated: the variable `PASSWORD=` (empty value) is
not exempted by the placeholder vocabulary and its key-name signal fires, yet
the `Security` rule produces no issue for it. -/
theorem security_empty_value_cex :
    isSafePlaceholderValue "" = false ∧
    isSecretKeyName "PASSWORD" = true ∧
    Security [⟨"PASSWORD", "", 1⟩] "f" = [] := by
  decide

/-- C3 (amended): a variable whose case-folded value equals or contains a safe
placeholder word produces no issue; a variable with a *non-empty* value that is
not exempted, and whose key-name signal or value-shape signal fires, produces
exactly one `potential secret in plaintext` issue. -/
theorem security_rule_characterization (v : Var) (file : String) :
    (isSafePlaceholderValue v.value = true → Security [v] file = []) ∧
    (v.value ≠ "" → isSafePlaceholderValue v.value = false →
      (isSecretKeyName v.key || looksLikeSecretValue v.value) = true →
      ∃ recs, Security [v] file =
        [NewIssue "potential secret in plaintext" v.key file v.line 0 recs]) := by
  have hs : Security [v] file = securityCheckVar file v := by
    simp [Security]
  constructor
  · intro h
    rw [hs]
    simp only [securityCheckVar, h]
    split_ifs <;> rfl
  · intro hne hsafe hsig
    have h1 : (v.value == "") = false := by
      simpa using hne
    rw [hs]
    simp only [securityCheckVar, h1, hsafe, hsig]
    exact ⟨_, by rfl⟩

/-- Witness for the amended C3 at the concrete inputs of the claim:
`API_SECRET=localhost` is exempted and produces no issue, while
`REAL_SECRET=sk_live_51H1234567890abcdef` produces exactly one
`potential secret in plaintext` issue. -/
theorem security_rule_characterization_witness :
    Security [⟨"API_SECRET", "localhost", 1⟩] "f" = [] ∧
    ∃ recs, Security [⟨"REAL_SECRET", "sk_live_51H1234567890abcdef", 2⟩] "f" =
      [NewIssue "potential secret in plaintext" "REAL_SECRET" "f" 2 0 recs] :=
  ⟨(security_rule_characterization ⟨"API_SECRET", "localhost", 1⟩ "f").1 (by decide),
   (security_rule_characterization ⟨"REAL_SECRET", "sk_live_51H1234567890abcdef", 2⟩ "f").2
     (by decide) (by decide) (by decide)⟩

/-! ## Claim 2: characterization of the `Duplicate` rule -/

theorem lookupIssue_setIssue_self (m : List (String × Issue)) (k : String) (i : Issue) :
    lookupIssue (setIssue m k i) k = some i := by
  induction m with
  | nil => simp [setIssue, lookupIssue]
  | cons p rest ih =>
    by_cases hp : p.1 == k
    · simp [setIssue, hp, lookupIssue]
    · simp [setIssue, hp, lookupIssue, ih]

theorem lookupIssue_setIssue_ne (m : List (String × Issue)) (k' k : String) (i : Issue)
    (h : ¬(k' == k) = true) :
    lookupIssue (setIssue m k' i) k = lookupIssue m k := by
  induction m with
  | nil => simp [setIssue, lookupIssue, h]
  | cons p rest ih =>
    by_cases hp : p.1 == k'
    · have : p.1 = k' := by simpa using hp
      simp [setIssue, hp, lookupIssue, this, h]
    · simp only [setIssue, hp]
      by_cases hpk : p.1 == k
      · simp [lookupIssue, hpk]
      · simp [lookupIssue, hpk, ih]

theorem lookupIssue_eq_none_iff (m : List (String × Issue)) (k : String) :
    lookupIssue m k = none ↔ k ∉ m.map Prod.fst := by
  induction m with
  | nil => simp [lookupIssue]
  | cons p rest ih =>
    by_cases hp : p.1 == k
    · have : p.1 = k := by simpa using hp
      simp [lookupIssue, hp, this]
    · have : ¬p.1 = k := by simpa using hp
      simp [lookupIssue, hp, ih, this, Ne.symm this]

theorem setIssue_of_lookup_none (m : List (String × Issue)) (k : String) (i : Issue)
    (h : lookupIssue m k = none) :
    setIssue m k i = m ++ [(k, i)] := by
  induction m with
  | nil => simp [setIssue]
  | cons p rest ih =>
    simp only [lookupIssue] at h
    by_cases hp : p.1 == k
    · simp [hp] at h
    · simp only [hp] at h
      simp [setIssue, hp, ih h]

theorem map_fst_setIssue_of_lookup_some (m : List (String × Issue)) (k : String)
    (i j : Issue) (h : lookupIssue m k = some j) :
    (setIssue m k i).map Prod.fst = m.map Prod.fst := by
  induction m with
  | nil => simp [lookupIssue] at h
  | cons p rest ih =>
    simp only [lookupIssue] at h
    by_cases hp : p.1 == k
    · simp [setIssue, hp]
    · simp only [hp] at h
      simp [setIssue, hp, ih h]

theorem mem_setIssue (m : List (String × Issue)) (k : String) (i : Issue)
    (p : String × Issue) :
    p ∈ setIssue m k i → p ∈ m ∨ p = (k, i) := by
  induction m with
  | nil =>
    intro hp
    simp [setIssue] at hp
    simp [hp]
  | cons q rest ih =>
    intro hp
    by_cases hq : q.1 == k
    · have hqe : q.1 = k := by simpa using hq
      simp only [setIssue, hq, if_pos, List.mem_cons] at hp
      rcases hp with hp | hp
      · right; rw [hp, hqe]
      · left; exact List.mem_cons_of_mem _ hp
    · simp [setIssue, hq] at hp
      rcases hp with hp | hp
      · left
        rw [hp]
        exact List.mem_cons_self _ _
      · rcases ih hp with h | h
        · left; exact List.mem_cons_of_mem _ h
        · right; exact h

/-- Wellformedness of the `seen` accumulator of `Duplicate`: association keys
are distinct (it models a Go map) and every stored issue's `Key` field equals
its association key. -/
def SeenInv (m : List (String × Issue)) : Prop :=
  (m.map Prod.fst).Nodup ∧ ∀ p ∈ m, (p.2).key = p.1

theorem seenInv_dupStep (file : String) (seen : List (String × Issue)) (v : Var)
    (h : SeenInv seen) : SeenInv (dupStep file seen v) := by
  obtain ⟨hnd, hinv⟩ := h
  unfold dupStep
  cases hcur : lookupIssue seen v.key with
  | none =>
    rw [setIssue_of_lookup_none _ _ _ hcur]
    constructor
    · have hnotin : v.key ∉ seen.map Prod.fst := (lookupIssue_eq_none_iff _ _).mp hcur
      rw [List.map_append]
      refine List.Nodup.append hnd (List.nodup_singleton _) ?_
      intro a ha hav
      have hae : a = v.key := by simpa using hav
      exact hnotin (hae ▸ ha)
    · intro p hp
      rcases List.mem_append.mp hp with hp | hp
      · exact hinv p hp
      · simp only [List.mem_singleton] at hp
        rw [hp]
        rfl
  | some cur =>
    constructor
    · rw [map_fst_setIssue_of_lookup_some _ _ _ _ hcur]
      exact hnd
    · intro p hp
      rcases mem_setIssue _ _ _ _ hp with h | h
      · exact hinv p h
      · rw [h]
        rfl

theorem seenInv_foldl_dupStep (file : String) (vars : List Var) :
    ∀ seen, SeenInv seen → SeenInv (vars.foldl (dupStep file) seen) := by
  induction vars with
  | nil => intro seen h; exact h
  | cons v rest ih =>
    intro seen h
    rw [List.foldl_cons]
    exact ih _ (seenInv_dupStep file seen v h)

/-- The issue stored for key `k` after the `Duplicate` loop runs over a list
of occurrences of `k`, starting from the issue `start` already stored (if
any): the first occurrence sets `FirstLine` and leaves `Line` at `0`, each
further occurrence moves `Line` to its own line. -/
def dupIssueAfter (file k : String) : Option Issue → List Var → Option Issue
  | start, [] => start
  | none, v :: rest =>
    some (NewIssue "duplicate variable" k file v.line
      (match rest with | [] => 0 | _ :: _ => (rest.getLastD v).line) [])
  | some i, v :: rest =>
    some (NewIssue "duplicate variable" k file i.firstLine ((rest.getLastD v).line) [])

theorem getLastD_shift {α : Type} (l : List α) : ∀ (w d : α),
    (w :: l).getLast?.getD d = l.getLast?.getD w := by
  induction l with
  | nil => intro w d; rfl
  | cons x xs ih =>
    intro w d
    rw [List.getLast?_cons_cons, ih x d, ih x w]

theorem lookup_foldl_dupStep (file : String) (vars : List Var) :
    ∀ (seen : List (String × Issue)) (k : String),
    lookupIssue (vars.foldl (dupStep file) seen) k =
      dupIssueAfter file k (lookupIssue seen k) (vars.filter (fun v => v.key == k)) := by
  induction vars with
  | nil =>
    intro seen k
    cases h : lookupIssue seen k <;> simp [dupIssueAfter, h]
  | cons v rest ih =>
    intro seen k
    rw [List.foldl_cons, ih]
    by_cases hk : v.key == k
    · have hkeq : v.key = k := by simpa using hk
      subst hkeq
      rw [@List.filter_cons_of_pos _ (fun u => u.key == v.key) v rest (by simp)]
      cases hcur : lookupIssue seen v.key with
      | none =>
        have hds : dupStep file seen v =
            setIssue seen v.key (NewIssue "duplicate variable" v.key file v.line 0 []) := by
          unfold dupStep
          rw [hcur]
        rw [hds, lookupIssue_setIssue_self]
        cases hocc : rest.filter (fun u => u.key == v.key) with
        | nil => simp [dupIssueAfter]
        | cons w ws => simp [dupIssueAfter, NewIssue, List.getLastD_cons, getLastD_shift]
      | some cur =>
        have hds : dupStep file seen v =
            setIssue seen v.key
              (NewIssue "duplicate variable" v.key file cur.firstLine v.line []) := by
          unfold dupStep
          rw [hcur]
        rw [hds, lookupIssue_setIssue_self]
        cases hocc : rest.filter (fun u => u.key == v.key) with
        | nil => simp [dupIssueAfter, NewIssue]
        | cons w ws => simp [dupIssueAfter, NewIssue, List.getLastD_cons, getLastD_shift]
    · rw [@List.filter_cons_of_neg _ (fun u => u.key == k) v rest hk]
      have hl : lookupIssue (dupStep file seen v) k = lookupIssue seen k := by
        unfold dupStep
        cases hcur : lookupIssue seen v.key <;>
          exact lookupIssue_setIssue_ne seen v.key k _ hk
      rw [hl]

theorem filter_key_eq_lookup (m : List (String × Issue)) (k : String) :
    (m.map Prod.fst).Nodup → (∀ p ∈ m, (p.2).key = p.1) →
    (m.map Prod.snd).filter (fun i => i.key == k) = (lookupIssue m k).toList := by
  induction m with
  | nil => intro _ _; simp [lookupIssue]
  | cons p rest ih =>
    intro hnd hinv
    have hpk : (p.2).key = p.1 := hinv p (List.mem_cons_self _ _)
    have hnd' : (rest.map Prod.fst).Nodup := (List.nodup_cons.mp (by simpa using hnd)).2
    have hnotin : p.1 ∉ rest.map Prod.fst := (List.nodup_cons.mp (by simpa using hnd)).1
    by_cases hp : p.1 == k
    · have hpe : p.1 = k := by simpa using hp
      have hpass : ((p.2).key == k) = true := by simp [hpk, hpe]
      rw [List.map_cons, @List.filter_cons_of_pos _ (fun i => i.key == k) p.2 (rest.map Prod.snd) hpass]
      have hrest : (rest.map Prod.snd).filter (fun i => i.key == k) = [] := by
        rw [List.filter_eq_nil_iff]
        intro i hi
        obtain ⟨q, hq, hqi⟩ := List.mem_map.mp hi
        have : (q.2).key = q.1 := hinv q (List.mem_cons_of_mem _ hq)
        have hq1 : q.1 ≠ k := by
          intro hcontra
          exact hnotin (hpe ▸ hcontra ▸ List.mem_map_of_mem Prod.fst hq)
        simp [← hqi, this, hq1]
      rw [hrest]
      simp [lookupIssue, hp]
    · have hfail : ¬(((p.2).key == k) = true) := by simp [hpk]; simpa using hp
      rw [List.map_cons, @List.filter_cons_of_neg _ (fun i => i.key == k) p.2 (rest.map Prod.snd) hfail]
      rw [ih hnd' (fun q hq => hinv q (List.mem_cons_of_mem _ hq))]
      simp [lookupIssue, hp]

/-- C2: for every input of well-formed variable records (source lines are
1-based, hence nonzero), a key occurring more than once produces exactly one
`duplicate variable` issue, whose `FirstLine` is the line of the key's first
occurrence and whose `Line` (last line) is the line of its last occurrence; a
key occurring at most once produces no issue. -/
theorem duplicate_rule_characterization (vars : List Var) (file k : String)
    (h : ∀ v ∈ vars, v.line ≠ 0) :
    (Duplicate vars file).filter (fun i => i.key == k) =
      match vars.filter (fun v => v.key == k) with
      | [] => []
      | [_] => []
      | v :: rest =>
        [NewIssue "duplicate variable" k file v.line ((rest.getLastD v).line) []] := by
  have hinv := seenInv_foldl_dupStep file vars [] ⟨List.nodup_nil, by simp⟩
  have hlookup := lookup_foldl_dupStep file vars [] k
  have hcomm : (Duplicate vars file).filter (fun i => i.key == k)
      = (((vars.foldl (dupStep file) []).map Prod.snd).filter
          (fun i => i.key == k)).filter (fun i => i.line != 0) := by
    show ((((vars.foldl (dupStep file) []).map Prod.snd).filter
        (fun i => i.line != 0)).filter (fun i => i.key == k)) = _
    rw [List.filter_filter, List.filter_filter]
    congr 1
    funext i
    exact Bool.and_comm _ _
  have hnone : lookupIssue [] k = none := rfl
  rw [hcomm, filter_key_eq_lookup _ k hinv.1 hinv.2, hlookup, hnone]
  cases hocc : vars.filter (fun v => v.key == k) with
  | nil => rfl
  | cons v rest =>
    cases rest with
    | nil => simp [dupIssueAfter, NewIssue]
    | cons w ws =>
      have hmem : (w :: ws).getLastD v ∈ vars := by
        have hm : (w :: ws).getLastD v ∈ vars.filter (fun v => v.key == k) :=
          hocc ▸ List.getLastD_mem_cons _ _
        exact (List.mem_filter.mp hm).1
      have hline : ((w :: ws).getLastD v).line ≠ 0 := h _ hmem
      rw [List.getLastD_eq_getLast?] at hline
      simp [dupIssueAfter, NewIssue, hline, List.getLastD_eq_getLast?]

/-- Witness for C2 at the spec's concrete input: key `PORT` on lines 3 and 9
only yields exactly one issue with `FirstLine = 3` and `Line = 9`. -/
theorem duplicate_rule_characterization_witness :
    (Duplicate [⟨"PORT", "8080", 3⟩, ⟨"PORT", "3000", 9⟩] "f").filter
        (fun i => i.key == "PORT") =
      [NewIssue "duplicate variable" "PORT" "f" 3 9 []] :=
  (duplicate_rule_characterization [⟨"PORT", "8080", 3⟩, ⟨"PORT", "3000", 9⟩] "f" "PORT"
    (by decide)).trans (by decide)

/-! ## Claims 5 and 6: the confidence heuristic -/

/-- The clamp applied at the end of `calculateConfidence` (`> 1.0` cap
followed by `< 0.0` floor). -/
def clamp01 (q : ℚ) : ℚ :=
  if 1 < q then 1 else if q < 0 then 0 else q

theorem clamp01_bounds (q : ℚ) : 0 ≤ clamp01 q ∧ clamp01 q ≤ 1 := by
  unfold clamp01
  split_ifs <;> constructor <;> linarith

theorem clamp01_mono (q r : ℚ) (h : q ≤ r) : clamp01 q ≤ clamp01 r := by
  unfold clamp01
  split_ifs <;> linarith

/-- The let-chain of `calculateConfidence`, over arbitrary Boolean signals,
equals the clamped sum of the five independent adjustments. -/
theorem seq_clamp (b1 b2 b3 b4 b5 : Bool) :
    (let c : ℚ := 1/2
     let c := if b1 then c + 3/10 else c
     let c := if b2 then c + 1/5 else c
     let c := if b3 then c - 3/10 else c
     let c := if b4 then c + 1/5 else c
     let c := if b5 then c + 1/5 else c
     let c := if 1 < c then 1 else c
     let c := if c < 0 then 0 else c
     c) =
    clamp01 ((1/2 : ℚ) + (if b1 then (3/10 : ℚ) else 0) + (if b2 then (1/5 : ℚ) else 0)
      - (if b3 then (3/10 : ℚ) else 0) + (if b4 then (1/5 : ℚ) else 0)
      + (if b5 then (1/5 : ℚ) else 0)) := by
  cases b1 <;> cases b2 <;> cases b3 <;> cases b4 <;> cases b5 <;> norm_num [clamp01]

/-- The sequential accumulation of `calculateConfidence` equals the clamped
sum of its five independent adjustments. -/
theorem calculateConfidence_eq_clamp (varName line : String) (pattern : VariablePattern) :
    calculateConfidence varName line pattern =
      clamp01 ((1/2 : ℚ)
        + (if goToUpper varName == varName && decide (1 < goLen varName) then 3/10 else 0)
        + (if goContains varName "_" then 1/5 else 0)
        - (if decide (goLen varName ≤ 2) then 3/10 else 0)
        + (if commonEnvVars.any (fun common => goContains (goToUpper varName) common) then
             (1/5 : ℚ) else 0)
        + (if goContains (goToLower line) "process.env" ||
              goContains (goToLower line) "os.getenv" ||
              goContains (goToLower line) "os.environ" ||
              goContains (goToLower line) "$env:" ||
              goContains (goToLower line) "$\x7b" then (1/5 : ℚ) else 0)) := by
  unfold calculateConfidence
  exact seq_clamp _ _ _ _ _

/-- C5: for every candidate name, source line and pattern, the computed
confidence equals `0.5` plus `0.3` for an all-uppercase multi-character name,
plus `0.2` for a name containing an underscore, minus `0.3` for a name of at
most two characters, plus `0.2` (at most once) when the uppercased name
contains a common environment-variable name, plus `0.2` when the lowercased
line contains a contextual marker, the sum clamped to `[0, 1]`. -/
theorem calculateConfidence_formula (varName line : String) (pattern : VariablePattern) :
    calculateConfidence varName line pattern =
      clamp01 ((1/2 : ℚ)
        + (if goToUpper varName == varName && decide (1 < goLen varName) then 3/10 else 0)
        + (if goContains varName "_" then 1/5 else 0)
        - (if decide (goLen varName ≤ 2) then 3/10 else 0)
        + (if commonEnvVars.any (fun common => goContains (goToUpper varName) common) then
             (1/5 : ℚ) else 0)
        + (if goContains (goToLower line) "process.env" ||
              goContains (goToLower line) "os.getenv" ||
              goContains (goToLower line) "os.environ" ||
              goContains (goToLower line) "$env:" ||
              goContains (goToLower line) "$\x7b" then (1/5 : ℚ) else 0)) ∧
    0 ≤ calculateConfidence varName line pattern ∧
    calculateConfidence varName line pattern ≤ 1 := by
  refine ⟨calculateConfidence_eq_clamp varName line pattern, ?_, ?_⟩
  · rw [calculateConfidence_eq_clamp varName line pattern]
    exact (clamp01_bounds _).1
  · rw [calculateConfidence_eq_clamp varName line pattern]
    exact (clamp01_bounds _).2

theorem listStartsWith_append (pat : List Char) :
    ∀ (as bs : List Char), listStartsWith as pat = true →
      listStartsWith (as ++ bs) pat = true := by
  induction pat with
  | nil => intro as bs _; cases as ++ bs <;> rfl
  | cons p ps ih =>
    intro as bs h
    cases as with
    | nil => simp [listStartsWith] at h
    | cons c cs =>
      simp only [listStartsWith, Bool.and_eq_true] at h
      simp only [List.cons_append, listStartsWith, Bool.and_eq_true]
      exact ⟨h.1, ih cs bs h.2⟩

theorem listStartsWith_nil_eq (pat : List Char) (h : listStartsWith [] pat = true) :
    pat = [] := by
  cases pat with
  | nil => rfl
  | cons p ps => simp [listStartsWith] at h

theorem listContainsSub_append_left (pat : List Char) :
    ∀ (as bs : List Char), listContainsSub as pat = true →
      listContainsSub (as ++ bs) pat = true := by
  intro as
  induction as with
  | nil =>
    intro bs h
    simp only [listContainsSub] at h
    rw [listStartsWith_nil_eq pat h]
    exact listContainsSub_nil_pat _
  | cons c cs ih =>
    intro bs h
    simp only [listContainsSub, Bool.or_eq_true] at h ⊢
    rcases h with h | h
    · exact Or.inl (listStartsWith_append pat _ bs h)
    · exact Or.inr (ih bs h)

theorem listContainsSub_append_right (pat : List Char) :
    ∀ (as bs : List Char), listContainsSub bs pat = true →
      listContainsSub (as ++ bs) pat = true := by
  intro as
  induction as with
  | nil => intro bs h; exact h
  | cons c cs ih =>
    intro bs h
    simp only [List.cons_append, listContainsSub, Bool.or_eq_true]
    exact Or.inr (ih bs h)

theorem goStr_toList_append (s t : String) : (s ++ t).toList = s.toList ++ t.toList :=
  String.data_append s t

theorem goContains_append_left (s t sub : String) (h : goContains s sub = true) :
    goContains (s ++ t) sub = true := by
  unfold goContains at h ⊢
  rw [goStr_toList_append]
  exact listContainsSub_append_left _ _ _ h

theorem goToUpper_append (s t : String) :
    goToUpper (s ++ t) = goToUpper s ++ goToUpper t := by
  unfold goToUpper
  apply congrArg String.mk
  rw [goStr_toList_append, List.map_append]

theorem goLen_append (s t : String) : goLen (s ++ t) = goLen s + goLen t := by
  unfold goLen
  rw [goStr_toList_append, List.length_append]

/-- C6: appending `_KEY` to a candidate name, holding the source line and
pattern fixed, never decreases the computed confidence. -/
theorem calculateConfidence_append_key_monotone (varName line : String)
    (pattern : VariablePattern) :
    calculateConfidence varName line pattern ≤
      calculateConfidence (varName ++ "_KEY") line pattern := by
  rw [calculateConfidence_eq_clamp varName line pattern,
    calculateConfidence_eq_clamp (varName ++ "_KEY") line pattern]
  apply clamp01_mono
  have hupper :
      (goToUpper varName == varName && decide (1 < goLen varName)) = true →
      (goToUpper (varName ++ "_KEY") == (varName ++ "_KEY") &&
        decide (1 < goLen (varName ++ "_KEY"))) = true := by
    intro h
    simp only [Bool.and_eq_true, beq_iff_eq, decide_eq_true_eq] at h
    have hux : goToUpper (varName ++ "_KEY") = varName ++ "_KEY" := by
      rw [goToUpper_append, h.1]
      rfl
    have hlx : 1 < goLen (varName ++ "_KEY") := by
      rw [goLen_append]
      have h4 : goLen "_KEY" = 4 := rfl
      omega
    simp [hux, hlx]
  have h1 :
      (if goToUpper varName == varName && decide (1 < goLen varName) then (3/10 : ℚ) else 0) ≤
        (if goToUpper (varName ++ "_KEY") == (varName ++ "_KEY") &&
            decide (1 < goLen (varName ++ "_KEY")) then (3/10 : ℚ) else 0) := by
    split_ifs with ha hb
    · norm_num
    · exact absurd (hupper ha) hb
    · norm_num
    · norm_num
  have hus : goContains (varName ++ "_KEY") "_" = true := by
    unfold goContains
    rw [goStr_toList_append]
    exact listContainsSub_append_right _ _ _ (by decide)
  have h2 :
      (if goContains varName "_" then (1/5 : ℚ) else 0) ≤
        (if goContains (varName ++ "_KEY") "_" then (1/5 : ℚ) else 0) := by
    rw [if_pos hus]
    split_ifs <;> norm_num
  have hlen : ¬(decide (goLen (varName ++ "_KEY") ≤ 2) = true) := by
    rw [goLen_append]
    simp only [decide_eq_true_eq]
    have : goLen "_KEY" = 4 := rfl
    omega
  have h3 :
      (0 : ℚ) - (if decide (goLen (varName ++ "_KEY") ≤ 2) then (3/10 : ℚ) else 0) =
        0 := by
    rw [if_neg hlen]
    norm_num
  have h3' :
      -(if decide (goLen (varName ++ "_KEY") ≤ 2) then (3/10 : ℚ) else 0) = 0 := by
    rw [if_neg hlen]
    norm_num
  have h3'' :
      -(if decide (goLen varName ≤ 2) then (3/10 : ℚ) else 0) ≤ 0 := by
    split_ifs <;> norm_num
  have hcommon :
      (commonEnvVars.any (fun common => goContains (goToUpper varName) common)) = true →
      (commonEnvVars.any (fun common =>
        goContains (goToUpper (varName ++ "_KEY")) common)) = true := by
    intro h
    rw [List.any_eq_true] at h ⊢
    obtain ⟨c, hc, hcc⟩ := h
    refine ⟨c, hc, ?_⟩
    rw [goToUpper_append]
    exact goContains_append_left _ _ _ hcc
  have h4 :
      (if commonEnvVars.any (fun common => goContains (goToUpper varName) common) then
          (1/5 : ℚ) else 0) ≤
        (if commonEnvVars.any (fun common =>
            goContains (goToUpper (varName ++ "_KEY")) common) then (1/5 : ℚ) else 0) := by
    split_ifs with ha hb
    · norm_num
    · exact absurd (hcommon ha) hb
    · norm_num
    · norm_num
  have h5 :
      -(if decide (goLen varName ≤ 2) then (3/10 : ℚ) else 0) ≤
        -(if decide (goLen (varName ++ "_KEY") ≤ 2) then (3/10 : ℚ) else 0) := by
    rw [h3']
    exact h3''
  linarith [h1, h2, h4, h5]

/-! ## Claim 7: the confidence aggregator -/

theorem sum_confidence_eq_foldl (us : List UsageResult) :
    us.foldl (fun t u => t + u.confidence) 0 =
      (us.map (fun u => u.confidence)).sum := by
  rw [List.sum_eq_foldl, List.foldl_map]

theorem mem_grv_foldl (minConfidence : ℚ) (minUsages : Int)
    (l : List (String × List UsageResult)) :
    ∀ (acc : List String) (name : String),
    (name ∈ l.foldl (grvStep minConfidence minUsages) acc ↔
      name ∈ acc ∨ ∃ usages, (name, usages) ∈ l ∧ minUsages ≤ (usages.length : Int) ∧
        minConfidence ≤
          (usages.foldl (fun t u => t + u.confidence) 0) / (usages.length : ℚ)) := by
  induction l with
  | nil =>
    intro acc name
    simp
  | cons kv rest ih =>
    intro acc name
    rw [List.foldl_cons, ih]
    simp only [grvStep]
    split_ifs with hc1 hc2
    · constructor
      · rintro (hacc | ⟨us, hus, hcnt, hconf⟩)
        · exact Or.inl hacc
        · exact Or.inr ⟨us, List.mem_cons_of_mem _ hus, hcnt, hconf⟩
      · rintro (hacc | ⟨us, hus, hcnt, hconf⟩)
        · exact Or.inl hacc
        · rcases List.mem_cons.mp hus with heq | hmem
          · exfalso
            have h2 : us = kv.2 := congrArg Prod.snd heq
            rw [h2] at hcnt
            omega
          · exact Or.inr ⟨us, hmem, hcnt, hconf⟩
    · constructor
      · rintro (hacc | ⟨us, hus, hcnt, hconf⟩)
        · rcases List.mem_append.mp hacc with ha | hb
          · exact Or.inl ha
          · have hn : name = kv.1 := by simpa using hb
            refine Or.inr ⟨kv.2, ?_, by omega, hc2⟩
            rw [hn]
            exact List.mem_cons_self _ _
        · exact Or.inr ⟨us, List.mem_cons_of_mem _ hus, hcnt, hconf⟩
      · rintro (hacc | ⟨us, hus, hcnt, hconf⟩)
        · exact Or.inl (List.mem_append.mpr (Or.inl hacc))
        · rcases List.mem_cons.mp hus with heq | hmem
          · have hn : name = kv.1 := congrArg Prod.fst heq
            exact Or.inl (List.mem_append.mpr (Or.inr (by simp [hn])))
          · exact Or.inr ⟨us, hmem, hcnt, hconf⟩
    · constructor
      · rintro (hacc | ⟨us, hus, hcnt, hconf⟩)
        · exact Or.inl hacc
        · exact Or.inr ⟨us, List.mem_cons_of_mem _ hus, hcnt, hconf⟩
      · rintro (hacc | ⟨us, hus, hcnt, hconf⟩)
        · exact Or.inl hacc
        · rcases List.mem_cons.mp hus with heq | hmem
          · exfalso
            have h2 : us = kv.2 := congrArg Prod.snd heq
            rw [h2] at hconf
            exact hc2 hconf
          · exact Or.inr ⟨us, hmem, hcnt, hconf⟩

/-- C7: `GetRequiredVariables` returns exactly the names of buckets with at
least `minUsages` usage records whose arithmetic-mean confidence is at least
`minConfidence`; two calls with identical thresholds on the same unmodified
scan result return the same names.  The hypothesis that buckets are nonempty
is the well-formedness invariant of scan results (a bucket is only ever
created by appending a usage record); it keeps the rational model honest where
Go would compute `0.0/0` (NaN). -/
theorem getRequiredVariables_characterization (sr : ScanResult) (minConfidence : ℚ)
    (minUsages : Int) (name : String) (hne : ∀ p ∈ sr.Variables, p.2 ≠ []) :
    (name ∈ GetRequiredVariables sr minConfidence minUsages ↔
      ∃ usages, (name, usages) ∈ sr.Variables ∧ minUsages ≤ (usages.length : Int) ∧
        minConfidence ≤
          ((usages.map (fun u => u.confidence)).sum / (usages.length : ℚ))) ∧
    GetRequiredVariables sr minConfidence minUsages =
      GetRequiredVariables sr minConfidence minUsages := by
  refine ⟨?_, rfl⟩
  unfold GetRequiredVariables
  rw [mem_grv_foldl]
  simp only [List.mem_nil_iff, false_or, sum_confidence_eq_foldl]

/-- Witness for C7 at a concrete scan result: one `PORT` bucket with a single
full-confidence usage passes the thresholds `(0.7, 1)`. -/
theorem getRequiredVariables_characterization_witness :
    "PORT" ∈ GetRequiredVariables
        ⟨[("PORT", [⟨"PORT", "a.go", 1, "x", "w", 1⟩])], ["a.go"], []⟩ (7/10) 1 :=
  ((getRequiredVariables_characterization
      ⟨[("PORT", [⟨"PORT", "a.go", 1, "x", "w", 1⟩])], ["a.go"], []⟩ (7/10) 1 "PORT"
      (by decide)).1).mpr
    ⟨[⟨"PORT", "a.go", 1, "x", "w", 1⟩], by decide, by decide, by norm_num⟩

/-! ## Claim 8: error handling of `ScanProject`

The claim as stated fails on the code: `ScanProject` merges only the
`Variables` of a successfully opened file's per-file result, so a mid-read
error recorded by `scanFile` in its per-file `Errors` is dropped from the
project result.  Path-access errors and open failures *are* collected. -/

/-- The error messages the walk callback appends to the project result for one
walk event: an access-error message, or an open-failure message for a file
that passes the extension filter.  (A mid-read error of an opened file is not
among them: the merge drops it.) -/
def walkEntryErrors (ps : ProjectScanner) : WalkEntry → List String
  | .accessError path msg => ["error accessing " ++ path ++ ": " ++ msg]
  | .dir _ => []
  | .file path (.openError msg) =>
    if shouldScanFile ps path then ["error scanning " ++ path ++ ": " ++ msg] else []
  | .file _ (.ok _ _) => []

/-- The paths the walk callback appends to the project result's scanned-file
list for one walk event. -/
def walkEntryFiles (ps : ProjectScanner) : WalkEntry → List String
  | .file path (.ok _ _) => if shouldScanFile ps path then [path] else []
  | _ => []

theorem scanStep_Errors (ps : ProjectScanner) (acc : ScanResult) (e : WalkEntry) :
    (scanStep ps acc e).Errors = acc.Errors ++ walkEntryErrors ps e := by
  cases e with
  | accessError path msg => rfl
  | dir path => simp [scanStep, walkEntryErrors]
  | file path content =>
    cases content with
    | openError msg =>
      by_cases hs : shouldScanFile ps path
      · simp [scanStep, walkEntryErrors, hs]
      · simp [scanStep, walkEntryErrors, hs]
    | ok lines readErr =>
      by_cases hs : shouldScanFile ps path
      · simp [scanStep, walkEntryErrors, hs]
      · simp [scanStep, walkEntryErrors, hs]

theorem scanStep_Files (ps : ProjectScanner) (acc : ScanResult) (e : WalkEntry) :
    (scanStep ps acc e).Files = acc.Files ++ walkEntryFiles ps e := by
  cases e with
  | accessError path msg => simp [scanStep, walkEntryFiles]
  | dir path => simp [scanStep, walkEntryFiles]
  | file path content =>
    cases content with
    | openError msg =>
      by_cases hs : shouldScanFile ps path
      · simp [scanStep, walkEntryFiles, hs]
      · simp [scanStep, walkEntryFiles, hs]
    | ok lines readErr =>
      by_cases hs : shouldScanFile ps path
      · simp [scanStep, walkEntryFiles, hs]
      · simp [scanStep, walkEntryFiles, hs]

theorem scanFold_Errors_Files (ps : ProjectScanner) (entries : List WalkEntry) :
    ∀ acc : ScanResult,
    (entries.foldl (scanStep ps) acc).Errors =
        acc.Errors ++ entries.bind (walkEntryErrors ps) ∧
    (entries.foldl (scanStep ps) acc).Files =
        acc.Files ++ entries.bind (walkEntryFiles ps) := by
  induction entries with
  | nil => intro acc; simp
  | cons e rest ih =>
    intro acc
    rw [List.foldl_cons]
    obtain ⟨ihe, ihf⟩ := ih (scanStep ps acc e)
    constructor
    · rw [ihe, scanStep_Errors]
      simp [List.cons_bind, List.append_assoc]
    · rw [ihf, scanStep_Files]
      simp [List.cons_bind, List.append_assoc]

/-- Counterexample to C8 as stated: for a file whose read fails mid-stream,
the per-file result of `scanFile` records the read error, but `ScanProject`
merges only the per-file `Variables`, so the project result's error list stays
empty even though the file was scanned — the per-file scan error is *not*
appended to the scan result's errors. -/
theorem scanProject_read_error_dropped_cex :
    (scanFile ⟨[], ["node_modules"], [".go"]⟩ "a.go" ["x"] (some "read error")).Errors =
      ["read error"] ∧
    (ScanProject ⟨[], ["node_modules"], [".go"]⟩
        [.file "a.go" (.ok ["x"] (some "read error"))]).Errors = [] ∧
    (ScanProject ⟨[], ["node_modules"], [".go"]⟩
        [.file "a.go" (.ok ["x"] (some "read error"))]).Files = ["a.go"] :=
  ⟨rfl, rfl, rfl⟩

/-- C8 (amended): during `ScanProject`, every path-access error reported by
the walk and every failure to open a file selected for scanning is appended to
the scan result's errors, in walk order; the walk continues past every error
(the result is a total fold over all walk events, and the scanned-file list
collects every successfully opened file), and the accumulated partial result
is always returned.  A failure while *reading* an already-opened file is
recorded only in the per-file result and dropped when merging. -/
theorem scanProject_error_collection (ps : ProjectScanner) (entries : List WalkEntry) :
    (ScanProject ps entries).Errors = entries.bind (walkEntryErrors ps) ∧
    (ScanProject ps entries).Files = entries.bind (walkEntryFiles ps) := by
  have h := scanFold_Errors_Files ps entries ⟨[], [], []⟩
  exact ⟨by simpa using h.1, by simpa using h.2⟩

/-! ## Claim 9: the bucket invariant of scan results -/

/-- Every usage record stored under a key of the usages-by-variable mapping
names that key in its own `Variable` field. -/
def BucketInv (m : List (String × List UsageResult)) : Prop :=
  ∀ p ∈ m, ∀ u ∈ p.2, u.varName = p.1

theorem bucketInv_appendUsages (m : List (String × List UsageResult)) (k : String)
    (us : List UsageResult) (hm : BucketInv m) (hus : ∀ u ∈ us, u.varName = k) :
    BucketInv (appendUsages m k us) := by
  induction m with
  | nil =>
    intro p hp u hu
    simp only [appendUsages, List.mem_singleton] at hp
    rw [hp] at hu ⊢
    exact hus u hu
  | cons q rest ih =>
    have hq : BucketInv rest := fun p hp => hm p (List.mem_cons_of_mem _ hp)
    by_cases hqk : q.1 == k
    · have hqe : q.1 = k := by simpa using hqk
      intro p hp u hu
      simp only [appendUsages, hqk, if_pos, List.mem_cons] at hp
      rcases hp with hp | hp
      · rw [hp] at hu ⊢
        rcases List.mem_append.mp hu with h | h
        · exact hm q (List.mem_cons_self _ _) u h
        · rw [hqe]
          exact hus u h
      · exact hm p (List.mem_cons_of_mem _ hp) u hu
    · intro p hp u hu
      simp only [appendUsages, hqk] at hp
      rcases List.mem_cons.mp hp with hp | hp
      · rw [hp] at hu ⊢
        exact hm q (List.mem_cons_self _ _) u hu
      · exact ih hq p hp u hu

theorem bucketInv_scanLine (ps : ProjectScanner) (filePath : String) (lineNum : Nat)
    (line : String) (acc : List (String × List UsageResult)) (hacc : BucketInv acc) :
    BucketInv (scanLine ps filePath lineNum line acc) := by
  unfold scanLine
  generalize ps.patterns = pats
  induction pats generalizing acc with
  | nil => exact hacc
  | cons pat rest ih =>
    rw [List.foldl_cons]
    apply ih
    generalize pat.matcher line = names
    induction names generalizing acc with
    | nil => exact hacc
    | cons nm nrest ihn =>
      rw [List.foldl_cons]
      apply ihn
      apply bucketInv_appendUsages _ _ _ hacc
      intro u hu
      simp only [List.mem_singleton] at hu
      rw [hu]

theorem bucketInv_scanLinesFrom (ps : ProjectScanner) (filePath : String)
    (lines : List String) :
    ∀ (n : Nat) (acc : List (String × List UsageResult)), BucketInv acc →
      BucketInv (scanLinesFrom ps filePath n lines acc) := by
  induction lines with
  | nil => intro n acc hacc; exact hacc
  | cons line rest ih =>
    intro n acc hacc
    exact ih (n + 1) _ (bucketInv_scanLine ps filePath (n + 1) line acc hacc)

theorem bucketInv_scanFile (ps : ProjectScanner) (filePath : String)
    (lines : List String) (readErr : Option String) :
    BucketInv (scanFile ps filePath lines readErr).Variables :=
  bucketInv_scanLinesFrom ps filePath lines 0 [] (fun p hp => by simp at hp)

theorem bucketInv_mergeFold (fv : List (String × List UsageResult)) :
    ∀ acc, BucketInv acc → BucketInv fv →
      BucketInv (fv.foldl (fun m kv => appendUsages m kv.1 kv.2) acc) := by
  induction fv with
  | nil => intro acc hacc _; exact hacc
  | cons kv rest ih =>
    intro acc hacc hfv
    rw [List.foldl_cons]
    apply ih _ _ (fun p hp => hfv p (List.mem_cons_of_mem _ hp))
    exact bucketInv_appendUsages acc kv.1 kv.2 hacc
      (fun u hu => hfv kv (List.mem_cons_self _ _) u hu)

theorem bucketInv_scanStep (ps : ProjectScanner) (acc : ScanResult) (e : WalkEntry)
    (hacc : BucketInv acc.Variables) : BucketInv (scanStep ps acc e).Variables := by
  cases e with
  | accessError path msg => exact hacc
  | dir path => exact hacc
  | file path content =>
    by_cases hs : shouldScanFile ps path
    · cases content with
      | openError msg => simp only [scanStep, hs]; simpa using hacc
      | ok lines readErr =>
        simp only [scanStep, hs, Bool.not_true, reduceIte]
        exact bucketInv_mergeFold _ _ hacc (bucketInv_scanFile ps path lines readErr)
    · cases content with
      | openError msg => simp only [scanStep, hs]; simpa using hacc
      | ok lines readErr => simp only [scanStep, hs]; simpa using hacc

theorem bucketInv_scanProject (ps : ProjectScanner) (entries : List WalkEntry) :
    BucketInv (ScanProject ps entries).Variables := by
  unfold ScanProject
  have h : ∀ acc : ScanResult, BucketInv acc.Variables →
      BucketInv (entries.foldl (scanStep ps) acc).Variables := by
    induction entries with
    | nil => intro acc hacc; exact hacc
    | cons e rest ih =>
      intro acc hacc
      rw [List.foldl_cons]
      exact ih _ (bucketInv_scanStep ps acc e hacc)
  exact h ⟨[], [], []⟩ (fun p hp => by simp at hp)

/-- C9: in every scan result produced by scanning — a single file via
`scanFile`, or a whole walk via `ScanProject` (including the merge of per-file
results) — every usage record stored under a key of the usages-by-variable
mapping has its own `Variable` field equal to that key. -/
theorem scan_bucket_invariant (ps : ProjectScanner) (path : String)
    (lines : List String) (readErr : Option String) (entries : List WalkEntry)
    (k : String) (us : List UsageResult) (u : UsageResult) :
    ((k, us) ∈ (scanFile ps path lines readErr).Variables → u ∈ us → u.varName = k) ∧
    ((k, us) ∈ (ScanProject ps entries).Variables → u ∈ us → u.varName = k) :=
  ⟨fun hm hu => bucketInv_scanFile ps path lines readErr (k, us) hm u hu,
   fun hm hu => bucketInv_scanProject ps entries (k, us) hm u hu⟩

/-- Witness for C9 at a concrete scanner whose single pattern reports `PORT`
on every line: the usage record stored in the `PORT` bucket of the resulting
one-file scan names `PORT` in its `Variable` field. -/
theorem scan_bucket_invariant_witness :
    (UsageResult.mk "PORT" "a.go" 1 "x" "w"
        (calculateConfidence "PORT" "x" ⟨"w", fun _ => ["PORT"], "d", "go"⟩)).varName =
      "PORT" :=
  (scan_bucket_invariant ⟨[⟨"w", fun _ => ["PORT"], "d", "go"⟩], [], [".go"]⟩ "a.go"
      ["x"] none [] "PORT"
      [⟨"PORT", "a.go", 1, "x", "w",
        calculateConfidence "PORT" "x" ⟨"w", fun _ => ["PORT"], "d", "go"⟩⟩]
      ⟨"PORT", "a.go", 1, "x", "w",
        calculateConfidence "PORT" "x" ⟨"w", fun _ => ["PORT"], "d", "go"⟩⟩).1
    (by
      rw [show (scanFile ⟨[⟨"w", fun _ => ["PORT"], "d", "go"⟩], [], [".go"]⟩ "a.go"
          ["x"] none).Variables =
          [("PORT", [⟨"PORT", "a.go", 1, "x", "w",
            calculateConfidence "PORT" "x" ⟨"w", fun _ => ["PORT"], "d", "go"⟩⟩])] from rfl]
      exact List.mem_singleton.mpr rfl)
    (List.mem_singleton.mpr rfl)

end Ecolint
